import Mathlib

/-!
Verification of the options-pricing engine of this repository
(`Options pricing web app_v2.tsx`, with `v1` sharing the identical pricing
functions).  The numerical code is embedded over the real numbers: JavaScript
`Math.exp`, `Math.log`, `Math.sqrt`, `Math.pow` become `Real.exp`, `Real.log`,
`Real.sqrt` and powers, the mathjs `erf` import becomes the mathematical Gauss
error function, and the mutable JavaScript arrays of `binomialTree` become
functions `ℕ → ℝ` updated in place with `Function.update`.
-/

noncomputable section

namespace OptionsPricing

/-- Model of the external mathjs `erf` import: the Gauss error function
`erf x = 2/√π · ∫ t in 0..x, exp (-t²)`. -/
def erf (x : ℝ) : ℝ := 2 / Real.sqrt Real.pi * ∫ t in (0:ℝ)..x, Real.exp (-t ^ 2)

/-- `normalCdf` from the source: `(1.0 + erf(x / Math.sqrt(2.0))) / 2.0`. -/
def normalCdf (x : ℝ) : ℝ := (1 + erf (x / Real.sqrt 2)) / 2

/-- The record returned by `blackScholes` (`{ callPrice, putPrice }`). -/
structure BSResult where
  callPrice : ℝ
  putPrice : ℝ

/-- `blackScholes` from the source:
`d1 = (Math.log(S/K) + (r - q + 0.5*sigma*sigma)*T) / (sigma*Math.sqrt(T))`,
`d2 = d1 - sigma*Math.sqrt(T)`,
`callPrice = S*exp(-q*T)*normalCdf(d1) - K*exp(-r*T)*normalCdf(d2)`,
`putPrice  = K*exp(-r*T)*normalCdf(-d2) - S*exp(-q*T)*normalCdf(-d1)`. -/
def blackScholes (S K T r sigma q : ℝ) : BSResult :=
  let d1 := (Real.log (S / K) + (r - q + 0.5 * sigma * sigma) * T) / (sigma * Real.sqrt T)
  let d2 := d1 - sigma * Real.sqrt T
  { callPrice := S * Real.exp (-q * T) * normalCdf d1 - K * Real.exp (-r * T) * normalCdf d2
    putPrice := K * Real.exp (-r * T) * normalCdf (-d2) - S * Real.exp (-q * T) * normalCdf (-d1) }

/-- The terminal-price array of `binomialTree`: `prices[i] = S * u^(N-i) * d^i`
(for `i = 0..N`; indices past `N` are never read by the algorithm). -/
def latticePrices (S u d : ℝ) (N : ℕ) : ℕ → ℝ := fun i => S * u ^ (N - i) * d ^ i

/-- The `prices.map(...)` callback of `binomialTree`:
`optionType === "call" ? Math.max(0, price - K) : Math.max(0, K - price)`. -/
def payoff (optionType : String) (K price : ℝ) : ℝ :=
  if optionType = "call" then max 0 (price - K) else max 0 (K - price)

/-- The inner loop of `binomialTree`'s backward induction: iterations
`i = 0 .. m-1` of `optionPrices[i] = exp(-r*dt)*(p*optionPrices[i] +
(1-p)*optionPrices[i+1])`, performed in place on the array `arr`. -/
def innerLoop (disc p : ℝ) (arr : ℕ → ℝ) : ℕ → (ℕ → ℝ)
  | 0 => arr
  | m + 1 =>
    let a := innerLoop disc p arr m
    Function.update a m (disc * (p * a m + (1 - p) * a (m + 1)))

/-- The outer loop of `binomialTree`'s backward induction: `k` passes at
`j = N-1, N-2, ..., N-k`, each pass running the inner loop for `i = 0..j`
(that is, `j + 1 = N - (pass index)` iterations). -/
def outerLoop (disc p : ℝ) (N : ℕ) (arr : ℕ → ℝ) : ℕ → (ℕ → ℝ)
  | 0 => arr
  | k + 1 => innerLoop disc p (outerLoop disc p N arr k) (N - k)

/-- `binomialTree` from the source: `dt = T/N`, `u = exp(sigma*sqrt(dt))`,
`d = 1/u`, `p = (exp((r-q)*dt) - d)/(u - d)`; terminal prices
`S*u^(N-i)*d^i`, payoff per `optionType`, then the in-place backward
induction (`N` passes, `j = N-1` down to `0`), returning `optionPrices[0]`. -/
def binomialTree (S K T r sigma q : ℝ) (N : ℕ) (optionType : String) : ℝ :=
  let dt := T / (N : ℝ)
  let u := Real.exp (sigma * Real.sqrt dt)
  let d := 1 / u
  let p := (Real.exp ((r - q) * dt) - d) / (u - d)
  let optionPrices : ℕ → ℝ := fun i => payoff optionType K (latticePrices S u d N i)
  outerLoop (Real.exp (-r * dt)) p N optionPrices N 0

/-- The option side, as named by the specification (`OptionSide` enumeration). -/
inductive OptionSide
  | Call
  | Put

/-- Terminal payoff per side, as the specification words it:
`max(0, price - K)` for Call and `max(0, K - price)` for Put. -/
def specPayoff : OptionSide → ℝ → ℝ → ℝ
  | OptionSide.Call, K, price => max 0 (price - K)
  | OptionSide.Put, K, price => max 0 (K - price)

/-- One backward-induction step as the specification words it: the value array
narrows by one element, `value[i] = e^(-r·dt)·(p·value[i] + (1-p)·value[i+1])`. -/
def backStep (disc p : ℝ) (v : List ℝ) : List ℝ :=
  List.zipWith (fun a b => disc * (p * a + (1 - p) * b)) v v.tail

/-- The lattice algorithm exactly as the specification describes it (the
reference definition that `binomialTree` is compared against): `N+1` terminal
asset prices `S·u^(N-i)·d^i`, terminal payoffs by side, `N` narrowing
backward-induction steps, and the returned price is `value[0]`. -/
def binomialTreeSpec (S K T r sigma q : ℝ) (N : ℕ) (side : OptionSide) : ℝ :=
  let dt := T / (N : ℝ)
  let u := Real.exp (sigma * Real.sqrt dt)
  let d := 1 / u
  let p := (Real.exp ((r - q) * dt) - d) / (u - d)
  let terminal := (List.range (N + 1)).map fun i =>
    specPayoff side K (S * u ^ (N - i) * d ^ i)
  ((backStep (Real.exp (-r * dt)) p)^[N] terminal).getD 0 0

/-- The zero-volatility limit prices of the specification (§7):
`call → max(0, S·e^(-qT) - K·e^(-rT))`, `put → max(0, K·e^(-rT) - S·e^(-qT))`. -/
def zeroVolLimit (S K T r q : ℝ) : ℝ × ℝ :=
  (max 0 (S * Real.exp (-q * T) - K * Real.exp (-r * T)),
   max 0 (K * Real.exp (-r * T) - S * Real.exp (-q * T)))

/-- The `inputs` record threaded through `generateHeatmapData`
(`{S, T, r, sigma, q, N}`). -/
structure HeatInputs where
  S : ℝ
  T : ℝ
  r : ℝ
  sigma : ℝ
  q : ℝ
  N : ℕ

/-- The record returned by `generateHeatmapData` (`{ callData, putData }`). -/
structure HeatmapData where
  callData : List (List ℝ)
  putData : List (List ℝ)

/-- `generateHeatmapData` from the source (v2): the doubly nested loop over
`volatilities` (rows) and `strikePrices` (columns); the loop body tests the
loop-invariant `model` string, so each row is the map of the per-strike body
over `strikePrices` — for `"Black-Scholes"` it pushes
`Math.max(blackScholes(S, K_j, T, r, Math.max(vol_i, 0), q).callPrice, 0)` (and
likewise the put), for `"Binomial Tree"` it pushes the two clamped
`binomialTree` calls, and for any other model it pushes nothing, leaving the
rows empty. -/
def generateHeatmapData (model : String) (inputs : HeatInputs)
    (strikePrices volatilities : List ℝ) : HeatmapData :=
  let callRow : ℝ → List ℝ := fun v =>
    if model = "Black-Scholes" then
      strikePrices.map fun K =>
        max (blackScholes inputs.S K inputs.T inputs.r (max v 0) inputs.q).callPrice 0
    else if model = "Binomial Tree" then
      strikePrices.map fun K =>
        max (binomialTree inputs.S K inputs.T inputs.r (max v 0) inputs.q inputs.N "call") 0
    else []
  let putRow : ℝ → List ℝ := fun v =>
    if model = "Black-Scholes" then
      strikePrices.map fun K =>
        max (blackScholes inputs.S K inputs.T inputs.r (max v 0) inputs.q).putPrice 0
    else if model = "Binomial Tree" then
      strikePrices.map fun K =>
        max (binomialTree inputs.S K inputs.T inputs.r (max v 0) inputs.q inputs.N "put") 0
    else []
  { callData := volatilities.map callRow
    putData := volatilities.map putRow }

/-- The single-point price computation of the source (v2, the `useEffect`
body): for `"Black-Scholes"` the clamped `blackScholes` pair at
`Math.max(sigma, 0)`, for `"Binomial Tree"` the two clamped `binomialTree`
calls, and for any other model no result is produced. -/
def singlePointPrices (model : String) (inputs : HeatInputs) (K sigma : ℝ) :
    Option (ℝ × ℝ) :=
  if model = "Black-Scholes" then
    let res := blackScholes inputs.S K inputs.T inputs.r (max sigma 0) inputs.q
    some (max res.callPrice 0, max res.putPrice 0)
  else if model = "Binomial Tree" then
    some (max (binomialTree inputs.S K inputs.T inputs.r (max sigma 0) inputs.q inputs.N "call") 0,
          max (binomialTree inputs.S K inputs.T inputs.r (max sigma 0) inputs.q inputs.N "put") 0)
  else none

/-- JavaScript `x.toFixed(2)` followed by `Number(...)`: rounding to the
nearest multiple of `0.01`, ties away from zero toward the larger value
(ECMA-262 `toFixed`), i.e. `round (x * 100) / 100`. -/
def toFixed2 (x : ℝ) : ℝ := ((round (x * 100) : ℤ) : ℝ) / 100

/-- The strike axis built by the source (v2 line 181):
`Array.from({length: 10}, (_, i) => (K_min + i*(K_max - K_min)/9).toFixed(2))`
mapped through `Number`. -/
def strikeAxis (Kmin Kmax : ℝ) : List ℝ :=
  (List.range 10).map fun i : ℕ => toFixed2 (Kmin + (i : ℝ) * (Kmax - Kmin) / 9)

/-! ### Helper lemmas -/

/-- `getD` of a mapped `List.range 10` evaluates the mapped function. -/
lemma strikeAxis_getD (Kmin Kmax : ℝ) (j : ℕ) (hj : j < 10) :
    (strikeAxis Kmin Kmax).getD j 0 = toFixed2 (Kmin + (j : ℝ) * (Kmax - Kmin) / 9) := by
  unfold strikeAxis
  rw [List.getD_eq_getElem?_getD, List.getElem?_map, List.getElem?_range hj]
  rfl

/-- The error function vanishes at the origin. -/
lemma erf_zero : erf 0 = 0 := by
  simp [erf]

/-- `normalCdf 0 = 1/2`. -/
lemma normalCdf_zero : normalCdf 0 = 1 / 2 := by
  simp [normalCdf, erf_zero]

/-- The error function is odd. -/
lemma erf_neg (x : ℝ) : erf (-x) = -erf x := by
  have h2 : (∫ t in (0:ℝ)..(-x), (fun s : ℝ => Real.exp (-s ^ 2)) (-t))
      = ∫ t in -(-x)..-(0:ℝ), Real.exp (-t ^ 2) :=
    intervalIntegral.integral_comp_neg (fun s : ℝ => Real.exp (-s ^ 2))
  simp only [neg_neg, neg_zero, neg_sq] at h2
  unfold erf
  rw [h2, intervalIntegral.integral_symm]
  ring

/-- The Gaussian half-line integral, in the `exp (-t²)` form used by `erf`. -/
lemma gauss_Ioi : ∫ t in Set.Ioi (0:ℝ), Real.exp (-t ^ 2) = Real.sqrt Real.pi / 2 := by
  have h3 : (fun t : ℝ => Real.exp (-t ^ 2)) = fun t : ℝ => Real.exp (-1 * t ^ 2) := by
    funext t
    norm_num
  rw [h3]
  have h := integral_gaussian_Ioi 1
  rwa [div_one] at h

/-- `exp (-t²)` is integrable on the positive half line. -/
lemma gauss_integrableOn_Ioi :
    MeasureTheory.IntegrableOn (fun t : ℝ => Real.exp (-t ^ 2)) (Set.Ioi 0) := by
  have h3 : (fun t : ℝ => Real.exp (-t ^ 2)) = fun t : ℝ => Real.exp (-1 * t ^ 2) := by
    funext t
    norm_num
  rw [h3]
  exact (integrable_exp_neg_mul_sq one_pos).integrableOn

/-- The partial Gaussian integral never exceeds the half-line value. -/
lemma intervalIntegral_gauss_le (x : ℝ) :
    ∫ t in (0:ℝ)..x, Real.exp (-t ^ 2) ≤ Real.sqrt Real.pi / 2 := by
  rcases le_or_lt x 0 with hx | hx
  · have h1 : 0 ≤ ∫ t in x..(0:ℝ), Real.exp (-t ^ 2) :=
      intervalIntegral.integral_nonneg hx (fun u _ => (Real.exp_pos _).le)
    have h0 : ∫ t in (0:ℝ)..x, Real.exp (-t ^ 2) ≤ 0 := by
      rw [intervalIntegral.integral_symm]
      linarith
    have h2 : 0 ≤ Real.sqrt Real.pi / 2 := by positivity
    linarith
  · rw [intervalIntegral.integral_of_le hx.le, ← gauss_Ioi]
    refine MeasureTheory.setIntegral_mono_set gauss_integrableOn_Ioi ?_ ?_
    · exact MeasureTheory.ae_of_all _ (fun t => (Real.exp_pos _).le)
    · exact (Set.Ioc_subset_Ioi_self).eventuallyLE

/-- The error function is bounded above by 1. -/
lemma erf_le_one (x : ℝ) : erf x ≤ 1 := by
  have hc : 0 ≤ 2 / Real.sqrt Real.pi := by positivity
  have h := mul_le_mul_of_nonneg_left (intervalIntegral_gauss_le x) hc
  have heq : 2 / Real.sqrt Real.pi * (Real.sqrt Real.pi / 2) = 1 := by
    have hpi : Real.sqrt Real.pi ≠ 0 := by positivity
    field_simp
  unfold erf
  linarith

/-- The error function is bounded below by -1. -/
lemma neg_one_le_erf (x : ℝ) : -1 ≤ erf x := by
  have h := erf_le_one (-x)
  rw [erf_neg] at h
  linarith

/-- `Φ(x) + Φ(-x) = 1`, the reflection identity of the normal CDF. -/
lemma normalCdf_add_neg (x : ℝ) : normalCdf x + normalCdf (-x) = 1 := by
  unfold normalCdf
  rw [show -x / Real.sqrt 2 = -(x / Real.sqrt 2) from neg_div _ _, erf_neg]
  ring

/-! ### C1 -/

/-- C1: for S, K, T, σ > 0 the analytic pricer returns
`callPrice = S·e^(-qT)·Φ(d1) - K·e^(-rT)·Φ(d2)` and
`putPrice = K·e^(-rT)·Φ(-d2) - S·e^(-qT)·Φ(-d1)` with
`d1 = (ln(S/K) + (r - q + 0.5σ²)T)/(σ√T)`, `d2 = d1 - σ√T`,
and `Φ = normalCdf`. -/
theorem blackScholes_closed_form (S K T r sigma q : ℝ)
    (hS : 0 < S) (hK : 0 < K) (hT : 0 < T) (hsig : 0 < sigma) :
    (blackScholes S K T r sigma q).callPrice =
      S * Real.exp (-q * T) *
          normalCdf ((Real.log (S / K) + (r - q + 0.5 * sigma ^ 2) * T) / (sigma * Real.sqrt T)) -
        K * Real.exp (-r * T) *
          normalCdf ((Real.log (S / K) + (r - q + 0.5 * sigma ^ 2) * T) / (sigma * Real.sqrt T) -
            sigma * Real.sqrt T) ∧
    (blackScholes S K T r sigma q).putPrice =
      K * Real.exp (-r * T) *
          normalCdf (-((Real.log (S / K) + (r - q + 0.5 * sigma ^ 2) * T) /
            (sigma * Real.sqrt T) - sigma * Real.sqrt T)) -
        S * Real.exp (-q * T) *
          normalCdf (-((Real.log (S / K) + (r - q + 0.5 * sigma ^ 2) * T) /
            (sigma * Real.sqrt T))) := by
  have hd : (Real.log (S / K) + (r - q + 0.5 * sigma * sigma) * T) / (sigma * Real.sqrt T)
      = (Real.log (S / K) + (r - q + 0.5 * sigma ^ 2) * T) / (sigma * Real.sqrt T) := by
    ring
  constructor <;> simp only [blackScholes] <;> rw [hd]

/-- Witness for C1 at S = 100, K = 90, T = 1, r = 1/20, σ = 1/5, q = 0. -/
theorem blackScholes_closed_form_witness :
    (blackScholes 100 90 1 (1/20) (1/5) 0).callPrice =
      100 * Real.exp (-0 * 1) *
          normalCdf ((Real.log (100 / 90) + (1/20 - 0 + 0.5 * (1/5) ^ 2) * 1) /
            (1/5 * Real.sqrt 1)) -
        90 * Real.exp (-(1/20) * 1) *
          normalCdf ((Real.log (100 / 90) + (1/20 - 0 + 0.5 * (1/5) ^ 2) * 1) /
            (1/5 * Real.sqrt 1) - 1/5 * Real.sqrt 1) ∧
    (blackScholes 100 90 1 (1/20) (1/5) 0).putPrice =
      90 * Real.exp (-(1/20) * 1) *
          normalCdf (-((Real.log (100 / 90) + (1/20 - 0 + 0.5 * (1/5) ^ 2) * 1) /
            (1/5 * Real.sqrt 1) - 1/5 * Real.sqrt 1)) -
        100 * Real.exp (-0 * 1) *
          normalCdf (-((Real.log (100 / 90) + (1/20 - 0 + 0.5 * (1/5) ^ 2) * 1) /
            (1/5 * Real.sqrt 1))) :=
  blackScholes_closed_form 100 90 1 (1/20) (1/5) 0
    (by norm_num) (by norm_num) (by norm_num) (by norm_num)

/-- Characterization of the in-place inner loop: after `m` iterations the
indices below `m` hold the freshly written values (computed from the OLD array,
since iteration `i` reads `arr i` and `arr (i+1)` before either is
overwritten), and indices at or above `m` are untouched. -/
lemma innerLoop_apply (disc p : ℝ) (arr : ℕ → ℝ) (m i : ℕ) :
    innerLoop disc p arr m i =
      if i < m then disc * (p * arr i + (1 - p) * arr (i + 1)) else arr i := by
  induction m generalizing i with
  | zero => simp [innerLoop]
  | succ m ih =>
    simp only [innerLoop, Function.update_apply]
    rcases eq_or_ne i m with rfl | hne
    · rw [if_pos rfl, if_pos (Nat.lt_succ_self i), ih i, ih (i + 1),
        if_neg (lt_irrefl i), if_neg (by omega)]
    · rw [if_neg hne, ih i]
      by_cases h : i < m
      · rw [if_pos h, if_pos (by omega)]
      · rw [if_neg h, if_neg (by omega)]

/-- One narrowing backward-induction step shrinks the list by one. -/
lemma length_backStep (disc p : ℝ) (v : List ℝ) :
    (backStep disc p v).length = v.length - 1 := by
  simp [backStep]

/-- `k` narrowing steps shrink the list by `k`. -/
lemma length_backStep_iterate (disc p : ℝ) (v : List ℝ) (k : ℕ) :
    ((backStep disc p)^[k] v).length = v.length - k := by
  induction k generalizing v with
  | zero => simp
  | succ k ih =>
    rw [Function.iterate_succ_apply, ih, length_backStep]
    omega

/-- Entry `i` of a narrowing step, in `getD` form. -/
lemma backStep_getD (disc p : ℝ) (v : List ℝ) (i : ℕ) (h : i + 1 < v.length) :
    (backStep disc p v).getD i 0 =
      disc * (p * v.getD i 0 + (1 - p) * v.getD (i + 1) 0) := by
  have h1 : i < v.length := by omega
  have ht : i < v.tail.length := by
    rw [List.length_tail]
    omega
  have hz : i < (backStep disc p v).length := by
    rw [length_backStep]
    omega
  simp only [List.getD_eq_getElem?_getD, List.getElem?_eq_getElem hz,
    List.getElem?_eq_getElem h1, List.getElem?_eq_getElem h, Option.getD_some]
  simp [backStep]

/-- The in-place backward induction computes exactly the narrowing-list
backward induction, on the indices that are still alive after `k` passes. -/
lemma outerLoop_eq_iterate (disc p : ℝ) (N : ℕ) (L : List ℝ) (arr : ℕ → ℝ)
    (hL : L.length = N + 1) (harr : ∀ i, i ≤ N → arr i = L.getD i 0) :
    ∀ k, k ≤ N → ∀ i, i + k ≤ N →
      outerLoop disc p N arr k i = ((backStep disc p)^[k] L).getD i 0 := by
  intro k
  induction k with
  | zero =>
    intro _ i hi
    simpa [outerLoop] using harr i (by omega)
  | succ k ih =>
    intro hk i hi
    simp only [outerLoop]
    rw [innerLoop_apply, if_pos (by omega : i < N - k),
      ih (by omega) i (by omega), ih (by omega) (i + 1) (by omega),
      Function.iterate_succ_apply']
    have hbnd : i + 1 < ((backStep disc p)^[k] L).length := by
      rw [length_backStep_iterate, hL]
      omega
    rw [backStep_getD disc p ((backStep disc p)^[k] L) i hbnd]

/-- The code's payoff callback agrees with the spec's side-indexed payoff. -/
lemma payoff_eq_specPayoff (ot : String) (K x : ℝ) :
    payoff ot K x =
      specPayoff (if ot = "call" then OptionSide.Call else OptionSide.Put) K x := by
  by_cases h : ot = "call" <;> simp [payoff, specPayoff, h]

/-- Bridge between the code's array-based loops and the spec's narrowing-list
algorithm, for arbitrary factors. -/
lemma code_spec_bridge (S K disc p u d : ℝ) (N : ℕ) (ot : String) :
    outerLoop disc p N (fun i => payoff ot K (latticePrices S u d N i)) N 0 =
      ((backStep disc p)^[N]
        ((List.range (N + 1)).map fun i =>
          specPayoff (if ot = "call" then OptionSide.Call else OptionSide.Put) K
            (S * u ^ (N - i) * d ^ i))).getD 0 0 := by
  refine outerLoop_eq_iterate disc p N _ _ (by simp) ?_ N (le_refl N) 0 (by omega)
  intro i hi
  rw [List.getD_eq_getElem?_getD, List.getElem?_map,
    List.getElem?_range (by omega : i < N + 1)]
  simp [latticePrices, payoff_eq_specPayoff]

/-- `binomialTree` coincides with the specification algorithm, the option-type
string selecting the side. -/
lemma binomialTree_eq_spec (S K T r sigma q : ℝ) (N : ℕ) (ot : String) :
    binomialTree S K T r sigma q N ot =
      binomialTreeSpec S K T r sigma q N
        (if ot = "call" then OptionSide.Call else OptionSide.Put) := by
  simp only [binomialTree, binomialTreeSpec]
  exact code_spec_bridge S K (Real.exp (-r * (T / (N : ℝ)))) _ _ _ N ot

/-! ### C2 -/

/-- C2: for S, K, T, σ > 0 and N ≥ 1, `binomialTree` returns exactly the
result of the CRR algorithm of the spec: `dt = T/N`, `u = e^(σ√dt)`,
`d = 1/u`, `p = (e^((r-q)dt) - d)/(u - d)`, `N+1` terminal prices
`S·u^(N-i)·d^i`, side-dependent payoffs, then `N` narrowing backward-induction
steps `value[i] = e^(-r·dt)·(p·value[i] + (1-p)·value[i+1])`, the result being
`value[0]`. -/
theorem binomialTree_matches_spec_algorithm (S K T r sigma q : ℝ) (N : ℕ)
    (hS : 0 < S) (hK : 0 < K) (hT : 0 < T) (hsig : 0 < sigma) (hN : 1 ≤ N) :
    binomialTree S K T r sigma q N "call" =
      binomialTreeSpec S K T r sigma q N OptionSide.Call ∧
    binomialTree S K T r sigma q N "put" =
      binomialTreeSpec S K T r sigma q N OptionSide.Put := by
  constructor
  · have h := binomialTree_eq_spec S K T r sigma q N "call"
    simpa using h
  · have h := binomialTree_eq_spec S K T r sigma q N "put"
    rw [if_neg (by decide : ("put" : String) ≠ "call")] at h
    exact h

/-- Witness for C2 at S = 100, K = 95, T = 1, r = 1/20, σ = 1/5, q = 0, N = 3. -/
theorem binomialTree_matches_spec_algorithm_witness :
    binomialTree 100 95 1 (1/20) (1/5) 0 3 "call" =
      binomialTreeSpec 100 95 1 (1/20) (1/5) 0 3 OptionSide.Call ∧
    binomialTree 100 95 1 (1/20) (1/5) 0 3 "put" =
      binomialTreeSpec 100 95 1 (1/20) (1/5) 0 3 OptionSide.Put :=
  binomialTree_matches_spec_algorithm 100 95 1 (1/20) (1/5) 0 3
    (by norm_num) (by norm_num) (by norm_num) (by norm_num) (by norm_num)

/-! ### C5 -/

/-- C5: for all valid parameters the analytic pricer satisfies put-call
parity exactly: `call - put = S·e^(-qT) - K·e^(-rT)`. -/
theorem blackScholes_put_call_parity (S K T r sigma q : ℝ)
    (hS : 0 < S) (hK : 0 < K) (hT : 0 < T) (hsig : 0 < sigma) :
    (blackScholes S K T r sigma q).callPrice - (blackScholes S K T r sigma q).putPrice =
      S * Real.exp (-q * T) - K * Real.exp (-r * T) := by
  simp only [blackScholes]
  have h1 := normalCdf_add_neg
    ((Real.log (S / K) + (r - q + 0.5 * sigma * sigma) * T) / (sigma * Real.sqrt T))
  have h2 := normalCdf_add_neg
    ((Real.log (S / K) + (r - q + 0.5 * sigma * sigma) * T) / (sigma * Real.sqrt T)
      - sigma * Real.sqrt T)
  linear_combination S * Real.exp (-q * T) * h1 - K * Real.exp (-r * T) * h2

/-- Witness for C5 at S = 100, K = 93, T = 1, r = 1/20, σ = 1/5, q = 0. -/
theorem blackScholes_put_call_parity_witness :
    (blackScholes 100 93 1 (1/20) (1/5) 0).callPrice -
        (blackScholes 100 93 1 (1/20) (1/5) 0).putPrice =
      100 * Real.exp (-0 * 1) - 93 * Real.exp (-(1/20) * 1) :=
  blackScholes_put_call_parity 100 93 1 (1/20) (1/5) 0
    (by norm_num) (by norm_num) (by norm_num) (by norm_num)

/-! ### C8 -/

/-- C8: `normalCdf x` equals `(1 + erf (x/√2))/2` and always lies in `[0, 1]`. -/
theorem normalCdf_formula_and_range (x : ℝ) :
    normalCdf x = (1 + erf (x / Real.sqrt 2)) / 2 ∧
    0 ≤ normalCdf x ∧ normalCdf x ≤ 1 := by
  refine ⟨rfl, ?_, ?_⟩
  · have h := neg_one_le_erf (x / Real.sqrt 2)
    unfold normalCdf
    linarith
  · have h := erf_le_one (x / Real.sqrt 2)
    unfold normalCdf
    linarith

/-- `getD` with default 0 of a list of nonnegatives is nonnegative. -/
lemma getD_nonneg (l : List ℝ) (j : ℕ) (h : ∀ x ∈ l, 0 ≤ x) : 0 ≤ l.getD j 0 := by
  rcases lt_or_ge j l.length with hj | hj
  · rw [List.getD_eq_getElem?_getD, List.getElem?_eq_getElem hj, Option.getD_some]
    exact h _ (List.getElem_mem _)
  · rw [List.getD_eq_getElem?_getD, List.getElem?_eq_none hj]
    exact le_refl 0

/-- In-bounds `getD` of a mapped list evaluates the function. -/
lemma getD_map_of_lt {α β : Type*} (f : α → β) (l : List α) (i : ℕ)
    (hi : i < l.length) (d : β) (e : α) :
    (l.map f).getD i d = f (l.getD i e) := by
  rw [List.getD_eq_getElem?_getD, List.getElem?_map, List.getElem?_eq_getElem hi,
    List.getD_eq_getElem?_getD, List.getElem?_eq_getElem hi]
  rfl

/-! ### C4 -/

/-- C4 counterexample: the pricer functions do NOT clamp their own results:
at the valid parameters S = K = 100, T = 1, r = 1, σ = 1/2, q = 0, N = 1 the
risk-neutral probability p exceeds 1, and `binomialTree` returns a strictly
negative put price. -/
theorem binomialTree_negative_price_counterexample :
    binomialTree 100 100 1 1 (1/2) 0 1 "put" < 0 := by
  have h := binomialTree_eq_spec 100 100 1 1 (1/2) 0 1 "put"
  rw [if_neg (by decide : ("put" : String) ≠ "call")] at h
  rw [h]
  simp only [binomialTreeSpec, Nat.cast_one]
  norm_num [Real.sqrt_one, List.range_succ, backStep, specPayoff]
  have hu : (1:ℝ) < Real.exp (1/2) := by
    rw [← Real.exp_zero]
    exact Real.exp_lt_exp.mpr (by norm_num)
  have hui0 : 0 < (Real.exp ((1:ℝ)/2))⁻¹ := by positivity
  have hui : (Real.exp ((1:ℝ)/2))⁻¹ < 1 := inv_lt_one_of_one_lt₀ hu
  have hb : (0:ℝ) < 100 - 100 * (Real.exp ((1:ℝ)/2))⁻¹ := by nlinarith
  have hmax : (0:ℝ) ⊔ (100 - 100 * (Real.exp ((1:ℝ)/2))⁻¹)
      = 100 - 100 * (Real.exp ((1:ℝ)/2))⁻¹ := max_eq_right hb.le
  rw [hmax]
  have hud : 0 < Real.exp ((1:ℝ)/2) - (Real.exp ((1:ℝ)/2))⁻¹ := by linarith
  have hue : Real.exp ((1:ℝ)/2) < Real.exp 1 := Real.exp_lt_exp.mpr (by norm_num)
  have h1p : 1 - (Real.exp 1 - (Real.exp ((1:ℝ)/2))⁻¹) /
      (Real.exp ((1:ℝ)/2) - (Real.exp ((1:ℝ)/2))⁻¹) < 0 := by
    rw [sub_neg, lt_div_iff₀ hud]
    linarith
  exact mul_neg_of_pos_of_neg (Real.exp_pos _) (mul_neg_of_neg_of_pos h1p hb)

/-- C4 amended: the clamping to ≥ 0 lives in the CALLERS, not in the pricers:
`generateHeatmapData` pushes `Math.max(price, 0)` for every cell, so every
entry of both returned matrices is nonnegative (for every model string and
any axes), even though `blackScholes` and `binomialTree` themselves can
return negative values. -/
theorem heatmap_entries_clamped_nonneg (model : String) (inputs : HeatInputs)
    (strikePrices volatilities : List ℝ) (i j : ℕ) :
    0 ≤ ((generateHeatmapData model inputs strikePrices volatilities).callData.getD i []).getD j 0 ∧
    0 ≤ ((generateHeatmapData model inputs strikePrices volatilities).putData.getD i []).getD j 0 := by
  have key : ∀ (rows : List (List ℝ)), (∀ row ∈ rows, ∀ x ∈ row, 0 ≤ x) →
      0 ≤ (rows.getD i []).getD j 0 := by
    intro rows hrows
    apply getD_nonneg
    intro x hx
    rcases lt_or_ge i rows.length with hi | hi
    · rw [List.getD_eq_getElem?_getD, List.getElem?_eq_getElem hi, Option.getD_some] at hx
      exact hrows _ (List.getElem_mem _) x hx
    · rw [List.getD_eq_getElem?_getD, List.getElem?_eq_none hi] at hx
      simp at hx
  constructor <;> refine key _ ?_ <;>
  · intro row hrow x hx
    simp only [generateHeatmapData] at hrow
    rw [List.mem_map] at hrow
    obtain ⟨v, hv, rfl⟩ := hrow
    by_cases h1 : model = "Black-Scholes"
    · simp only [if_pos h1, List.mem_map] at hx
      obtain ⟨Kx, hK, rfl⟩ := hx
      exact le_max_right _ 0
    · by_cases h2 : model = "Binomial Tree"
      · simp only [if_neg h1, if_pos h2, List.mem_map] at hx
        obtain ⟨Kx, hK, rfl⟩ := hx
        exact le_max_right _ 0
      · simp only [if_neg h1, if_neg h2] at hx
        simp at hx

/-! ### C7 -/

/-- C7: for the two supported model strings, the grid has exactly
`volatilities.length` rows and `strikePrices.length` columns in both matrices,
and cell `[i][j]` of the pair is precisely what the single-point code path
(`singlePointPrices`, the `useEffect` computation) produces at
`strike = strikePrices[j]`, `volatility = volatilities[i]`. -/
theorem heatmap_matches_single_point (model : String) (inputs : HeatInputs)
    (strikePrices volatilities : List ℝ) (i j : ℕ)
    (hm : model = "Black-Scholes" ∨ model = "Binomial Tree")
    (hi : i < volatilities.length) (hj : j < strikePrices.length) :
    (generateHeatmapData model inputs strikePrices volatilities).callData.length
        = volatilities.length ∧
    (generateHeatmapData model inputs strikePrices volatilities).putData.length
        = volatilities.length ∧
    (∀ row ∈ (generateHeatmapData model inputs strikePrices volatilities).callData,
        row.length = strikePrices.length) ∧
    (∀ row ∈ (generateHeatmapData model inputs strikePrices volatilities).putData,
        row.length = strikePrices.length) ∧
    singlePointPrices model inputs (strikePrices.getD j 0) (volatilities.getD i 0) =
      some
        (((generateHeatmapData model inputs strikePrices volatilities).callData.getD i []).getD j 0,
         ((generateHeatmapData model inputs strikePrices volatilities).putData.getD i []).getD j 0) := by
  rcases hm with h | h <;> subst h
  · simp only [generateHeatmapData, singlePointPrices, eq_self_iff_true, if_true]
    refine ⟨by simp, by simp, ?_, ?_, ?_⟩
    · intro row hrow
      rw [List.mem_map] at hrow
      obtain ⟨v, hv, rfl⟩ := hrow
      simp
    · intro row hrow
      rw [List.mem_map] at hrow
      obtain ⟨v, hv, rfl⟩ := hrow
      simp
    · simp [List.getD_eq_getElem?_getD, List.getElem?_map, List.getElem?_eq_getElem hi,
        List.getElem?_eq_getElem hj]
  · have hne : ("Binomial Tree" : String) ≠ "Black-Scholes" := by decide
    simp only [generateHeatmapData, singlePointPrices, if_neg hne, eq_self_iff_true, if_true]
    refine ⟨by simp, by simp, ?_, ?_, ?_⟩
    · intro row hrow
      rw [List.mem_map] at hrow
      obtain ⟨v, hv, rfl⟩ := hrow
      simp
    · intro row hrow
      rw [List.mem_map] at hrow
      obtain ⟨v, hv, rfl⟩ := hrow
      simp
    · simp [List.getD_eq_getElem?_getD, List.getElem?_map, List.getElem?_eq_getElem hi,
        List.getElem?_eq_getElem hj]

/-- Witness for C7: Black-Scholes model, strikes [80, 90], volatilities
[3/10], cell (0, 1). -/
theorem heatmap_matches_single_point_witness :
    (generateHeatmapData "Black-Scholes" ⟨100, 1, 1/20, 1/5, 0, 3⟩
        [80, 90] [3/10]).callData.length = ([(3:ℝ)/10]).length ∧
    (generateHeatmapData "Black-Scholes" ⟨100, 1, 1/20, 1/5, 0, 3⟩
        [80, 90] [3/10]).putData.length = ([(3:ℝ)/10]).length ∧
    (∀ row ∈ (generateHeatmapData "Black-Scholes" ⟨100, 1, 1/20, 1/5, 0, 3⟩
        [80, 90] [3/10]).callData, row.length = ([(80:ℝ), 90]).length) ∧
    (∀ row ∈ (generateHeatmapData "Black-Scholes" ⟨100, 1, 1/20, 1/5, 0, 3⟩
        [80, 90] [3/10]).putData, row.length = ([(80:ℝ), 90]).length) ∧
    singlePointPrices "Black-Scholes" ⟨100, 1, 1/20, 1/5, 0, 3⟩
        (([(80:ℝ), 90]).getD 1 0) (([(3:ℝ)/10]).getD 0 0) =
      some
        (((generateHeatmapData "Black-Scholes" ⟨100, 1, 1/20, 1/5, 0, 3⟩
            [80, 90] [3/10]).callData.getD 0 []).getD 1 0,
         ((generateHeatmapData "Black-Scholes" ⟨100, 1, 1/20, 1/5, 0, 3⟩
            [80, 90] [3/10]).putData.getD 0 []).getD 1 0) :=
  heatmap_matches_single_point "Black-Scholes" ⟨100, 1, 1/20, 1/5, 0, 3⟩
    [80, 90] [3/10] 0 1 (Or.inl rfl) (by simp) (by simp)

/-! ### C10 -/

/-- C10: `binomialTree` computes the call payoff only for the exact string
`"call"`; any other `optionType` string (including `"Call"` or garbage)
silently yields the same result as `"put"` — no error is raised. -/
theorem binomialTree_optionType_dispatch (S K T r sigma q : ℝ) (N : ℕ) (s : String)
    (hs : s ≠ "call") :
    binomialTree S K T r sigma q N s = binomialTree S K T r sigma q N "put" := by
  have hput : ("put" : String) ≠ "call" := by decide
  have hp : payoff s = payoff "put" := by
    funext K price
    simp [payoff, hs, hput]
  simp only [binomialTree, hp]

/-- Witness for C10 at the unrecognized option-type string `"Call"`. -/
theorem binomialTree_optionType_dispatch_witness :
    binomialTree 100 90 1 0 1 0 2 "Call" = binomialTree 100 90 1 0 1 0 2 "put" :=
  binomialTree_optionType_dispatch 100 90 1 0 1 0 2 "Call" (by decide)

/-! ### C9 -/

/-- C9 counterexample: the strike axis is NOT the exact linspace value at
j = 1 for min = 80, max = 120: the code applies `toFixed(2)`, giving 84.44
rather than 80 + 40/9 = 84.444... . -/
theorem strikeAxis_linspace_counterexample :
    (strikeAxis 80 120).getD 1 0 ≠ 80 + 1 * (120 - 80) / 9 := by
  rw [strikeAxis_getD 80 120 1 (by norm_num)]
  have hround : round (((80 : ℝ) + (1 : ℕ) * (120 - 80) / 9) * 100) = 8444 := by
    rw [round_eq]
    have h1 : ((80 : ℝ) + (1 : ℕ) * (120 - 80) / 9) * 100 + 1 / 2 = 152009 / 18 := by
      norm_num
    rw [h1, Int.floor_eq_iff]
    constructor <;> norm_num
  unfold toFixed2
  rw [hround]
  norm_num

/-- C9 amended: the j-th strike value (j < 10) equals the linspace value
`min + j·(max-min)/9` ROUNDED to two decimals by `toFixed(2)`; the exact
linspace values only survive when they happen to have at most two decimals. -/
theorem strikeAxis_rounded_linspace (Kmin Kmax : ℝ) (j : ℕ) (hj : j < 10) :
    (strikeAxis Kmin Kmax).getD j 0 = toFixed2 (Kmin + (j : ℝ) * (Kmax - Kmin) / 9) :=
  strikeAxis_getD Kmin Kmax j hj

/-- Witness for the amended C9 at j = 0, min = 80, max = 120. -/
theorem strikeAxis_rounded_linspace_witness :
    (strikeAxis 80 120).getD 0 0 = toFixed2 (80 + (0 : ℕ) * (120 - 80) / 9) :=
  strikeAxis_rounded_linspace 80 120 0 (by norm_num)

/-! ### C6 -/

/-- C6 counterexample: with `steps = 0` (violating `steps ≥ 1`) the lattice
pricer does not report any error — it happily computes and returns the bare
terminal payoff, here `max 0 (100 - 80) = 20`. -/
theorem invalid_steps_counterexample :
    binomialTree 100 80 1 0 (1/5) 0 0 "call" = 20 := by
  have h : binomialTree 100 80 1 0 (1/5) 0 0 "call" = max 0 (100 - 80 : ℝ) := by
    simp [binomialTree, outerLoop, payoff, latticePrices]
  rw [h]
  norm_num

/-- C6 amended: the engine performs no parameter validation at all — there is
no `InvalidParameter` error anywhere; for every parameter combination,
including the invalid `steps = 0`, the pricers unconditionally compute and
return a numeric value (at `steps = 0` the backward induction is skipped and
the bare payoff at the spot is returned). -/
theorem no_parameter_validation (S K T r sigma q : ℝ) :
    binomialTree S K T r sigma q 0 "call" = max 0 (S - K) ∧
    binomialTree S K T r sigma q 0 "put" = max 0 (K - S) := by
  have hput : ("put" : String) ≠ "call" := by decide
  constructor <;> simp [binomialTree, outerLoop, payoff, latticePrices, hput]

/-! ### C3 -/

/-- C3 (code bug evidence): neither pricer special-cases σ = 0.  In the real
embedding (where division by zero is 0) the analytic pricer at
S = 100, K = 80, T = 1, r = q = 0, σ = 0 plugs d1 = d2 = 0 into the generic
formula and yields 10, while the zero-volatility limit price required by the
spec is `max 0 (100 - 80) = 20`; no `DegenerateSingularity` error exists in
the code. -/
theorem blackScholes_no_zero_vol_handling :
    (blackScholes 100 80 1 0 0 0).callPrice = 10 ∧
    (zeroVolLimit 100 80 1 0 0).1 = 20 := by
  constructor
  · simp only [blackScholes]
    norm_num [normalCdf_zero]
  · simp only [zeroVolLimit]
    norm_num

end OptionsPricing
